import Mathlib

/-!
Shallow embedding of src/env_parser.rs (crate dotenv): a parser for .env
files.  Strings are modelled as lists of characters; the Rust HashMap is
modelled as an association list in which insertion overwrites the binding
for an existing key.  Every definition below is a direct transcription of
the corresponding Rust function; names follow the source.
-/

set_option maxRecDepth 100000

namespace DotEnv

/-- Strings are modelled as lists of characters. -/
abbrev Str := List Char

def bslash : Char := '\\'
def dquote : Char := '"'
-- the apostrophe character
def squote : Char := Char.ofNat 39
def hashCh : Char := '#'
def nlCh : Char := '\n'

/-- Whitespace predicate used by the trim operations (models Rust
char::is_whitespace on the characters that matter for .env content). -/
def isWS (c : Char) : Bool :=
  c == ' ' || c == '\t' || c == '\r' || c == '\n'

/-- Models str::trim_start. -/
def trimStart (l : Str) : Str := l.dropWhile isWS

/-- Models str::trim_end. -/
def trimEnd (l : Str) : Str := (l.reverse.dropWhile isWS).reverse

/-- Models str::trim. -/
def trim (l : Str) : Str := trimEnd (trimStart l)

/-- Models splitn(2, char): returns the part before the first occurrence of
the separator and, when the separator occurs, the part after it. -/
def splitEq1 : Str → Str × Option Str
  | [] => ([], none)
  | c :: cs =>
    if c == '=' then ([], some cs)
    else
      match splitEq1 cs with
      | (k, r) => (c :: k, r)

/-- Split a character list at newline characters, keeping all fields
(n newlines produce n+1 fields).  Never returns the empty list. -/
def splitOnNl : Str → List Str
  | [] => [[]]
  | c :: cs =>
    if c == nlCh then [] :: splitOnNl cs
    else
      match splitOnNl cs with
      | f :: r => (c :: f) :: r
      | [] => [[c]]

/-- Strip one trailing carriage return (applied by str::lines to every
segment that was terminated by a newline). -/
def stripTrailingCR (l : Str) : Str :=
  if l.getLast? == some '\r' then l.dropLast else l

/-- Models Rust str::lines: split on newline, drop the final empty segment
produced by a trailing newline, strip one trailing carriage return from
every newline-terminated segment. -/
def rustLines (s : Str) : List Str :=
  if s = [] then []
  else
    let fs := splitOnNl s
    if s.getLast? == some nlCh then (fs.dropLast).map stripTrailingCR
    else (fs.dropLast).map stripTrailingCR ++ [fs.getLastD []]

/-- The scanner of strip_inline_comment: walks the line carrying the
in_quotes flag, the current quote character and the escaped flag, and
returns the index of the first hash character seen outside quotes
(the Rust function returns the prefix before that index). -/
def sicFind : Str → Bool → Char → Bool → Nat → Option Nat
  | [], _, _, _, _ => none
  | ch :: rest, in_quotes, quote_char, escaped, i =>
    if escaped then sicFind rest in_quotes quote_char false (i + 1)
    else if ch == bslash && in_quotes then sicFind rest in_quotes quote_char true (i + 1)
    else if (ch == dquote || ch == squote) && !in_quotes then sicFind rest true ch false (i + 1)
    else if in_quotes && ch == quote_char then sicFind rest false quote_char false (i + 1)
    else if ch == hashCh && !in_quotes then some i
    else sicFind rest in_quotes quote_char false (i + 1)

/-- Models strip_inline_comment: truncate the line at the first hash found
outside quotes and trim the trailing whitespace of the kept prefix;
return the line unchanged when no such hash exists. -/
def strip_inline_comment (line : Str) : Str :=
  match sicFind line false dquote false 0 with
  | some i => trimEnd (line.take i)
  | none => line

/-- Models find_unescaped_quote: index of the first occurrence of the quote
character that is not preceded by an (unconsumed) backslash. -/
def fuqGo : Str → Bool → Nat → Char → Option Nat
  | [], _, _, _ => none
  | c :: cs, escaped, i, q =>
    if escaped then fuqGo cs false (i + 1) q
    else if c == bslash then fuqGo cs true (i + 1) q
    else if c == q then some i
    else fuqGo cs false (i + 1) q

def find_unescaped_quote (s : Str) (quote_char : Char) : Option Nat :=
  fuqGo s false 0 quote_char

/-- Models process_escape_sequences: backslash followed by one of
n, t, r, backslash, double quote, single quote becomes the corresponding
literal character; a backslash followed by anything else is emitted
literally and the next character is left for the following iteration. -/
def process_escape_sequences : Str → Str
  | [] => []
  | c :: rest =>
    if c == bslash then
      match rest with
      | [] => [bslash]
      | next :: rest' =>
        if next == 'n' then '\n' :: process_escape_sequences rest'
        else if next == 't' then '\t' :: process_escape_sequences rest'
        else if next == 'r' then '\r' :: process_escape_sequences rest'
        else if next == bslash then bslash :: process_escape_sequences rest'
        else if next == dquote then dquote :: process_escape_sequences rest'
        else if next == squote then squote :: process_escape_sequences rest'
        else
          -- the backslash is emitted and next is left for the following
          -- iteration; since next is not itself a backslash (that case is
          -- handled above), that iteration emits next verbatim
          c :: next :: process_escape_sequences rest'
    else c :: process_escape_sequences rest

/-- Models strip_quotes: trim, then remove the first and last character
when the trimmed string has length at least two and is wrapped in a
matching pair of single or double quotes. -/
def strip_quotes (s : Str) : Str :=
  let trimmed := trim s
  if 2 ≤ trimmed.length then
    if (trimmed.head? == some dquote && trimmed.getLast? == some dquote)
        || (trimmed.head? == some squote && trimmed.getLast? == some squote) then
      (trimmed.drop 1).dropLast
    else trimmed
  else trimmed

/-- Length of the maximal run of backslashes at the end of the string
(the count computed by the while loop in ends_with_unescaped_quote). -/
def trailingBackslashes (s : Str) : Nat :=
  (s.reverse.takeWhile (fun c => c == bslash)).length

/-- Models ends_with_unescaped_quote: the string ends with the quote
character and the number of consecutive backslashes before that final
quote is even. -/
def ends_with_unescaped_quote (s : Str) (quote_char : Char) : Bool :=
  if s.getLast? == some quote_char then trailingBackslashes s.dropLast % 2 == 0
  else false

/-- Models str::ends_with for a single character. -/
def endsWithChar (s : Str) (c : Char) : Bool := s.getLast? == some c

/-- Models s.ends_with of a two-backslash pattern. -/
def endsWith2Backslash (s : Str) : Bool :=
  (s.getLast? == some bslash) && ((s.dropLast).getLast? == some bslash)

/-- The continuation test used on each line of a backslash continuation:
ends with a backslash but not with two backslashes. -/
def isContLine (t : Str) : Bool := endsWithChar t bslash && !endsWith2Backslash t

/-- Models parse_env_line: split at the first equals sign, trim both
sides, reject empty key or value; a value wrapped in a matching pair of
quotes is stripped and escape-decoded, anything else is taken verbatim. -/
def parse_env_line (line : Str) : Option (Str × Str) :=
  match splitEq1 line with
  | (_, none) => none
  | (kraw, some vraw) =>
    let key := trim kraw
    let val := trim vraw
    if key = [] then none
    else if val = [] then none
    else
      let processed_val :=
        if (val.head? == some dquote && endsWithChar val dquote)
            || (val.head? == some squote && endsWithChar val squote) then
          process_escape_sequences (trim (strip_quotes val))
        else val
      some (key, processed_val)

/-- The for loop of the multiline-quoted branch of parse_env_entry:
consume lines until one contains an unescaped closing quote (truncating
that line at the quote), give up with none once the running index
exceeds 100 after appending a quoteless line, and stop successfully when
the input runs out. -/
def multilineLoop (quote_char : Char) : List Str → Nat → Str → Nat → Option (Str × Nat)
  | [], _, value, consumed => some (value, consumed)
  | line :: rest, idx, value, consumed =>
    match find_unescaped_quote line quote_char with
    | some end_pos => some (value ++ nlCh :: line.take end_pos, consumed + 1)
    | none =>
      let value := value ++ nlCh :: line
      if idx > 100 then none
      else multilineLoop quote_char rest (idx + 1) value (consumed + 1)

/-- The loop of the backslash-continuation branch of parse_env_entry:
trim each line, append it without its trailing backslash while it still
ends in a single backslash, stop (keeping the partial value) once more
than 100 lines are consumed, and append the whole trimmed line and stop
when it does not end in a single backslash. -/
def continuationLoop : List Str → Str → Nat → Str × Nat
  | [], value, consumed => (value, consumed)
  | line :: rest, value, consumed =>
    let consumed' := consumed + 1
    let trimmed := trim line
    if isContLine trimmed then
      let value' := value ++ trimmed.dropLast
      if consumed' > 100 then (value', consumed')
      else continuationLoop rest value' consumed'
    else (value ++ trimmed, consumed')

/-- Models parse_env_entry: dispatch the first (already comment-stripped)
line to the multiline-quoted, backslash-continuation or single-line case
and report the key, the processed value and the number of lines
consumed. -/
def parse_env_entry : List Str → Option (Str × Str × Nat)
  | [] => none
  | first :: rest =>
    let first_line := trim first
    match splitEq1 first_line with
    | (_, none) => none
    | (kraw, some vraw) =>
      let key := trim kraw
      let initial_value := trim vraw
      if key = [] then none
      else if initial_value = [] then none
      else if (initial_value.head? == some dquote
                  && !ends_with_unescaped_quote initial_value dquote)
              || (initial_value.head? == some squote
                  && !ends_with_unescaped_quote initial_value squote) then
        let quote_char := initial_value.headD ' '
        match multilineLoop quote_char rest 0 (initial_value.drop 1) 1 with
        | some (value, consumed) => some (key, process_escape_sequences value, consumed)
        | none => none
      else if endsWithChar initial_value bslash && !endsWith2Backslash initial_value then
        let r := continuationLoop rest (initial_value.dropLast) 1
        some (key, process_escape_sequences r.1, r.2)
      else
        match parse_env_line first_line with
        | some (k, v) => some (k, v, 1)
        | none => none

/-- Insert into the association-list model of the HashMap: overwrite the
binding when the key is present, append otherwise. -/
def envInsert (m : List (Str × Str)) (k v : Str) : List (Str × Str) :=
  if m.any (fun p => p.1 == k) then
    m.map (fun p => if p.1 == k then (k, v) else p)
  else m ++ [(k, v)]

/-- Lookup in the association-list model of the HashMap. -/
def envLookup (m : List (Str × Str)) (k : Str) : Option Str :=
  (m.find? (fun p => p.1 == k)).map (fun p => p.2)

/-- True when the trimmed line starts with the two-character shebang. -/
def startsWithShebang : Str → Bool
  | c1 :: c2 :: _ => c1 == hashCh && c2 == '!'
  | _ => false

/-- The while loop of parse_env_str, producing the sequence of inserted
(key, value) pairs in order: trim, skip empty and comment lines, strip
the inline comment of the first line only, dispatch the stripped first
line plus all following raw lines to parse_env_entry, and advance the
cursor by the number of lines consumed (one when the entry is invalid). -/
def parseLoopFuel : Nat → List Str → List (Str × Str)
  | 0, _ => []
  | _, [] => []
  | fuel + 1, l :: rest =>
    let line := trim l
    if line = [] then parseLoopFuel fuel rest
    else if startsWithShebang line || line.head? == some hashCh then parseLoopFuel fuel rest
    else
      let line2 := trim (strip_inline_comment line)
      if line2 = [] then parseLoopFuel fuel rest
      else
        match parse_env_entry (line2 :: rest) with
        | some (k, v, n) => (k, v) :: parseLoopFuel fuel (rest.drop (n - 1))
        | none => parseLoopFuel fuel rest

def parseLoop (ls : List Str) : List (Str × Str) := parseLoopFuel ls.length ls

/-- Fold the inserted entries into the map, in order. -/
def envMapOf (entries : List (Str × Str)) : List (Str × Str) :=
  entries.foldl (fun m e => envInsert m e.1 e.2) []

/-- Models parse_env_str: split into lines, run the entry loop, return
the accumulated map.  The Rust function returns Result and never
constructs an error. -/
def parse_env_str (content : Str) : Except String (List (Str × Str)) :=
  Except.ok (envMapOf (parseLoop (rustLines content)))

/-- The map of a successful parse (parse_env_str never fails). -/
def parseOk (content : Str) : List (Str × Str) :=
  match parse_env_str content with
  | Except.ok m => m
  | Except.error _ => []

/-- Value carried by the last entry with the given key in a list of
(key, value) pairs, or none when no entry has that key.  This is the
declarative (specification-side) reading of last-occurrence-wins. -/
def lastEntryValue : List (Str × Str) → Str → Option Str
  | [], _ => none
  | e :: es, k =>
    match lastEntryValue es k with
    | some v => some v
    | none => if e.1 == k then some e.2 else none

lemma envLookup_envInsert (m : List (Str × Str)) (k' v k : Str) :
    envLookup (envInsert m k' v) k = if k = k' then some v else envLookup m k := by
  unfold envInsert envLookup
  by_cases hany : m.any (fun p => p.1 == k') = true
  · simp only [hany, if_true, List.find?_map]
    by_cases hk : k = k'
    · subst hk
      have hpf : ((fun p : Str × Str => p.1 == k) ∘ fun p => if p.1 == k then (k, v) else p)
          = fun p : Str × Str => p.1 == k := by
        funext q
        by_cases hq : q.1 = k <;> simp [Function.comp, hq]
      rw [hpf]
      rcases List.any_eq_true.mp hany with ⟨x, hxm, hxk⟩
      have hsome : (m.find? fun p : Str × Str => p.1 == k).isSome :=
        List.find?_isSome.mpr ⟨x, hxm, hxk⟩
      rcases Option.isSome_iff_exists.mp hsome with ⟨q0, hq0⟩
      have hq0k : q0.1 = k := by simpa using List.find?_some hq0
      simp [hq0, hq0k]
    · have hpf : ((fun p : Str × Str => p.1 == k) ∘ fun p => if p.1 == k' then (k', v) else p)
          = fun p : Str × Str => p.1 == k := by
        funext q
        by_cases hq : q.1 = k' <;> simp [Function.comp, hq, hk, Ne.symm hk]
      rw [hpf]
      cases hfind : m.find? (fun p : Str × Str => p.1 == k) with
      | none => simp [hk]
      | some q0 =>
        have hq0k : q0.1 = k := by simpa using List.find?_some hfind
        have hne : ¬(q0.1 = k') := by
          rw [hq0k]; exact hk
        simp [hk, hne]
  · simp only [hany, if_false, List.find?_append]
    have hfalse : m.any (fun p : Str × Str => p.1 == k') = false :=
      eq_false_of_ne_true hany
    have hnone : m.find? (fun p : Str × Str => p.1 == k') = none :=
      List.find?_eq_none.mpr (List.any_eq_false.mp hfalse)
    by_cases hk : k = k'
    · subst hk
      simp [hnone]
    · cases hfind : m.find? (fun p : Str × Str => p.1 == k) with
      | none => simp [hfind, hk, Ne.symm hk]
      | some q0 => simp [hfind, hk]

lemma envLookup_foldl (es : List (Str × Str)) (m : List (Str × Str)) (k : Str) :
    envLookup (es.foldl (fun acc e => envInsert acc e.1 e.2) m) k
      = match lastEntryValue es k with
        | some v => some v
        | none => envLookup m k := by
  induction es generalizing m with
  | nil => simp [lastEntryValue]
  | cons e es ih =>
    simp only [List.foldl_cons, lastEntryValue]
    rw [ih, envLookup_envInsert]
    cases hlast : lastEntryValue es k with
    | some v => simp
    | none =>
      by_cases hk : k = e.1
      · simp [hk]
      · have : ¬(e.1 == k) = true := by simpa using fun h => hk h.symm
        simp [hk, this]

lemma multilineLoop_exhaust (q : Char) (ls : List Str) (idx : Nat) (value : Str)
    (consumed : Nat)
    (hnone : ∀ l ∈ ls, find_unescaped_quote l q = none)
    (hlen : idx + ls.length ≤ 101) :
    multilineLoop q ls idx value consumed
      = some (value ++ ls.flatMap (fun l => nlCh :: l), consumed + ls.length) := by
  induction ls generalizing idx value consumed with
  | nil => simp [multilineLoop]
  | cons l ls ih =>
    have hl : find_unescaped_quote l q = none := hnone l (by simp)
    have hidx : ¬ idx > 100 := by
      simp only [List.length_cons] at hlen; omega
    simp only [multilineLoop, hl, if_neg hidx]
    rw [ih (idx + 1) _ _ (fun x hx => hnone x (by simp [hx]))
        (by simp only [List.length_cons] at hlen; omega)]
    simp only [List.flatMap_cons, List.length_cons, List.append_assoc, List.cons_append,
      Option.some.injEq, Prod.mk.injEq, true_and, and_true, eq_self_iff_true]
    omega

lemma multilineLoop_found (q : Char) (pre : List Str) (ln : Str) (post : List Str)
    (pos : Nat) (idx : Nat) (value : Str) (consumed : Nat)
    (hnone : ∀ l ∈ pre, find_unescaped_quote l q = none)
    (hfind : find_unescaped_quote ln q = some pos)
    (hlen : idx + pre.length ≤ 101) :
    multilineLoop q (pre ++ ln :: post) idx value consumed
      = some (value ++ pre.flatMap (fun l => nlCh :: l) ++ nlCh :: ln.take pos,
              consumed + pre.length + 1) := by
  induction pre generalizing idx value consumed with
  | nil => simp [multilineLoop, hfind]
  | cons l pre ih =>
    have hl : find_unescaped_quote l q = none := hnone l (by simp)
    have hidx : ¬ idx > 100 := by
      simp only [List.length_cons] at hlen; omega
    rw [List.cons_append]
    simp only [multilineLoop, hl, if_neg hidx]
    rw [ih (idx + 1) _ _ (fun x hx => hnone x (by simp [hx]))
        (by simp only [List.length_cons] at hlen; omega)]
    simp only [List.flatMap_cons, List.length_cons, List.append_assoc, List.cons_append,
      Option.some.injEq, Prod.mk.injEq, true_and, and_true, eq_self_iff_true]
    omega

lemma multilineLoop_abort (q : Char) (ls : List Str) (idx : Nat) (value : Str)
    (consumed : Nat)
    (hnone : ∀ l ∈ ls.take (102 - idx), find_unescaped_quote l q = none)
    (hlen : 102 ≤ idx + ls.length) (hidx : idx ≤ 101) :
    multilineLoop q ls idx value consumed = none := by
  induction ls generalizing idx value consumed with
  | nil => simp only [List.length_nil] at hlen; omega
  | cons l ls ih =>
    have htake : (l :: ls).take (102 - idx) = l :: ls.take (101 - idx) := by
      rw [show 102 - idx = (101 - idx) + 1 by omega]
      rfl
    have hl : find_unescaped_quote l q = none := by
      apply hnone l
      rw [htake]
      simp
    simp only [multilineLoop, hl]
    by_cases h : idx > 100
    · simp [h]
    · rw [if_neg h]
      apply ih (idx + 1)
      · intro x hx
        apply hnone x
        rw [htake]
        rw [show 102 - (idx + 1) = 101 - idx by omega] at hx
        exact List.mem_cons_of_mem _ hx
      · simp only [List.length_cons] at hlen; omega
      · omega

lemma continuationLoop_stop (pre : List Str) (stop : Str) (post : List Str)
    (value : Str) (consumed : Nat)
    (hpre : ∀ p ∈ pre, isContLine (trim p) = true)
    (hstop : isContLine (trim stop) = false)
    (hlen : consumed + pre.length ≤ 100) :
    continuationLoop (pre ++ stop :: post) value consumed
      = (value ++ (pre.map (fun p => (trim p).dropLast)).flatten ++ trim stop,
         consumed + pre.length + 1) := by
  induction pre generalizing value consumed with
  | nil => simp [continuationLoop, hstop]
  | cons p pre ih =>
    have hp : isContLine (trim p) = true := hpre p (by simp)
    have hcap : ¬ consumed + 1 > 100 := by
      simp only [List.length_cons] at hlen; omega
    rw [List.cons_append]
    simp only [continuationLoop, hp, if_true, if_neg hcap]
    rw [ih _ _ (fun x hx => hpre x (by simp [hx]))
        (by simp only [List.length_cons] at hlen; omega)]
    simp only [List.map_cons, List.flatten_cons, List.length_cons, List.append_assoc,
      Prod.mk.injEq, true_and, and_true, eq_self_iff_true]
    omega

lemma continuationLoop_cap (ls : List Str) (value : Str) (consumed : Nat)
    (hcont : ∀ p ∈ ls.take (101 - consumed), isContLine (trim p) = true)
    (hlen : 101 ≤ consumed + ls.length) (hcons : consumed ≤ 100) :
    continuationLoop ls value consumed
      = (value ++ ((ls.take (101 - consumed)).map (fun p => (trim p).dropLast)).flatten,
         101) := by
  induction ls generalizing value consumed with
  | nil => simp only [List.length_nil] at hlen; omega
  | cons l ls ih =>
    have htake : (l :: ls).take (101 - consumed) = l :: ls.take (100 - consumed) := by
      rw [show 101 - consumed = (100 - consumed) + 1 by omega]
      rfl
    have hl : isContLine (trim l) = true := by
      apply hcont l
      rw [htake]
      simp
    simp only [continuationLoop, hl, if_true]
    by_cases h : consumed + 1 > 100
    · have hc100 : consumed = 100 := by omega
      rw [if_pos h, htake, hc100]
      simp [List.take]
    · rw [if_neg h]
      rw [ih _ (consumed + 1)
          (by
            intro x hx
            apply hcont x
            rw [htake]
            rw [show 101 - (consumed + 1) = 100 - consumed by omega] at hx
            exact List.mem_cons_of_mem _ hx)
          (by simp only [List.length_cons] at hlen; omega)
          (by omega)]
      rw [htake]
      simp only [List.map_cons, List.flatten_cons, List.append_assoc,
        show 101 - (consumed + 1) = 100 - consumed by omega]

lemma parse_env_entry_multiline (l : Str) (rest : List Str) (kraw vraw : Str) (q : Char)
    (hsplit : splitEq1 (trim l) = (kraw, some vraw))
    (hkey : trim kraw ≠ [])
    (hq : (trim vraw).head? = some q)
    (hqc : q = dquote ∨ q = squote)
    (hml : ends_with_unescaped_quote (trim vraw) q = false) :
    parse_env_entry (l :: rest)
      = (multilineLoop q rest 0 ((trim vraw).drop 1) 1).map
          (fun r => (trim kraw, process_escape_sequences r.1, r.2)) := by
  obtain ⟨t, htv⟩ : ∃ t, trim vraw = q :: t := by
    cases htv : trim vraw with
    | nil => rw [htv] at hq; simp at hq
    | cons a t =>
      rw [htv] at hq
      simp only [List.head?_cons, Option.some.injEq] at hq
      exact ⟨t, by rw [hq]⟩
  have hvne : trim vraw ≠ [] := by rw [htv]; simp
  have hcond : (((trim vraw).head? == some dquote
        && !ends_with_unescaped_quote (trim vraw) dquote)
      || ((trim vraw).head? == some squote
        && !ends_with_unescaped_quote (trim vraw) squote)) = true := by
    rcases hqc with h | h <;> subst h
    · simp [hq, hml]
    · have h1 : ((trim vraw).head? == some dquote) = false := by
        rw [hq]; decide
      simp [h1, hq, hml]
  simp only [parse_env_entry, hsplit, if_neg hkey, if_neg hvne, hcond, if_true]
  rw [htv]
  simp only [List.headD_cons, List.drop_succ_cons, List.drop_zero]
  cases hm : multilineLoop q rest 0 t 1 with
  | none => simp
  | some r => simp

lemma parse_env_entry_continuation (l : Str) (rest : List Str) (kraw vraw : Str)
    (hsplit : splitEq1 (trim l) = (kraw, some vraw))
    (hkey : trim kraw ≠ []) (hvne : trim vraw ≠ [])
    (hnd : (trim vraw).head? ≠ some dquote)
    (hns : (trim vraw).head? ≠ some squote)
    (hcont : isContLine (trim vraw) = true) :
    parse_env_entry (l :: rest)
      = some (trim kraw,
          process_escape_sequences (continuationLoop rest ((trim vraw).dropLast) 1).1,
          (continuationLoop rest ((trim vraw).dropLast) 1).2) := by
  have hcond : (((trim vraw).head? == some dquote
        && !ends_with_unescaped_quote (trim vraw) dquote)
      || ((trim vraw).head? == some squote
        && !ends_with_unescaped_quote (trim vraw) squote)) = false := by
    simp [hnd, hns]
  have hcont' : (endsWithChar (trim vraw) bslash
      && !endsWith2Backslash (trim vraw)) = true := hcont
  simp only [parse_env_entry, hsplit, if_neg hkey, if_neg hvne, hcond, Bool.false_eq_true,
    if_false, hcont', if_true]

lemma parse_env_entry_single (l : Str) (rest : List Str) (kraw vraw : Str)
    (hsplit : splitEq1 (trim l) = (kraw, some vraw))
    (hkey : trim kraw ≠ []) (hvne : trim vraw ≠ [])
    (hnd : ((trim vraw).head? == some dquote
        && !ends_with_unescaped_quote (trim vraw) dquote) = false)
    (hns : ((trim vraw).head? == some squote
        && !ends_with_unescaped_quote (trim vraw) squote) = false)
    (hncont : isContLine (trim vraw) = false) :
    parse_env_entry (l :: rest)
      = (parse_env_line (trim l)).map (fun p => (p.1, p.2, 1)) := by
  have hcond : (((trim vraw).head? == some dquote
        && !ends_with_unescaped_quote (trim vraw) dquote)
      || ((trim vraw).head? == some squote
        && !ends_with_unescaped_quote (trim vraw) squote)) = false := by
    simp [hnd, hns]
  have hncont' : (endsWithChar (trim vraw) bslash
      && !endsWith2Backslash (trim vraw)) = false := hncont
  simp only [parse_env_entry, hsplit, if_neg hkey, if_neg hvne, hcond, Bool.false_eq_true,
    if_false, hncont']
  cases hp : parse_env_line (trim l) with
  | none => simp
  | some p => simp

lemma startsWithShebang_head (l : Str) (h : startsWithShebang l = true) :
    l.head? = some hashCh := by
  match l with
  | [] => simp [startsWithShebang] at h
  | [c] => simp [startsWithShebang] at h
  | c1 :: c2 :: t =>
    simp only [startsWithShebang, Bool.and_eq_true, beq_iff_eq] at h
    simp [h.1]

/-- When the dispatched entry is invalid, the driver advances the cursor by
one line: the loop on the remaining lines is resumed unchanged. -/
lemma parseLoop_entry_none (l : Str) (rest : List Str)
    (hne : l ≠ []) (htl : trim l = l) (hh : l.head? ≠ some hashCh)
    (hsic : strip_inline_comment l = l)
    (hnone : parse_env_entry (l :: rest) = none) :
    parseLoop (l :: rest) = parseLoop rest := by
  have hsb : startsWithShebang l = false := by
    cases h : startsWithShebang l
    · rfl
    · exact absurd (startsWithShebang_head l h) hh
  have hh' : (l.head? == some hashCh) = false := by
    cases h : l.head? == some hashCh
    · rfl
    · exact absurd (by simpa using h) hh
  show parseLoopFuel (rest.length + 1) (l :: rest) = parseLoop rest
  simp only [parseLoopFuel, htl, if_neg hne, hsb, hh', Bool.or_self, Bool.false_eq_true,
    if_false, hsic, hnone]
  rfl

/-- Input with two well-formed entries, a line with no equals sign and an
entry whose value is empty (mirrors the invalid-lines unit test). -/
def c1content : Str := ("KEY=VALUE\nINVALIDLINE\nANOTHER=GOODVALUE\nNOTHING=").toList

/-- Input containing no valid entry at all. -/
def c1junk : Str := ("INVALID\n# comment\nNOTHING=\n=VALUE").toList

/-- Claim C1: parse_env_str never returns an error: every input produces
Except.ok; malformed entries (no equals sign, empty key, empty value) are
skipped without aborting the surrounding lines, and an input with no
valid entry yields the empty map. -/
theorem C1_parse_env_str_never_fails :
    (∀ content : Str, parse_env_str content = Except.ok (parseOk content))
      ∧ envLookup (parseOk c1content) (("KEY").toList) = some (("VALUE").toList)
      ∧ envLookup (parseOk c1content) (("ANOTHER").toList) = some (("GOODVALUE").toList)
      ∧ envLookup (parseOk c1content) (("INVALIDLINE").toList) = none
      ∧ envLookup (parseOk c1content) (("NOTHING").toList) = none
      ∧ parseOk c1junk = [] := by
  refine ⟨fun content => rfl, ?_, ?_, ?_, ?_, ?_⟩ <;> decide

/-- Duplicate-key input: the same key on two non-continued lines. -/
def c4content : Str := ("KEY=first\nKEY=second").toList

/-- Claim C4: the returned map holds, for every key, exactly the value of
the last entry produced with that key: looking the key up in the final
map agrees with taking the last matching entry of the insert sequence;
in particular a later duplicate overwrites an earlier one. -/
theorem C4_last_duplicate_wins :
    (∀ (content : Str) (k : Str),
        envLookup (parseOk content) k = lastEntryValue (parseLoop (rustLines content)) k)
      ∧ envLookup (parseOk c4content) (("KEY").toList) = some (("second").toList) := by
  constructor
  · intro content k
    show envLookup (envMapOf (parseLoop (rustLines content))) k = _
    unfold envMapOf
    rw [envLookup_foldl]
    cases lastEntryValue (parseLoop (rustLines content)) k <;> simp [envLookup]
  · decide

lemma pes_cons_of_ne (c : Char) (r : Str) (h : c ≠ bslash) :
    process_escape_sequences (c :: r) = c :: process_escape_sequences r := by
  have hb : (c == bslash) = false := by simpa using h
  rw [process_escape_sequences.eq_def]
  simp only [hb, Bool.false_eq_true, if_false]

/-- Input whose value contains the two-character backslash-n sequence
inside double quotes. -/
def c7content : Str := ("MSG=\"line1\\nline2\"").toList

/-- Claim C7: escape decoding scans left to right; a backslash followed by
n, t, r, backslash, double quote or single quote emits the corresponding
literal character and consumes both; a backslash followed by any other
character emits the backslash literally and leaves the following
character for the next iteration; any other character is copied; the MSG
example therefore holds a real newline between line1 and line2. -/
theorem C7_escape_decoding :
    (∀ r : Str,
        process_escape_sequences (bslash :: 'n' :: r) = '\n' :: process_escape_sequences r)
  ∧ (∀ r : Str,
        process_escape_sequences (bslash :: 't' :: r) = '\t' :: process_escape_sequences r)
  ∧ (∀ r : Str,
        process_escape_sequences (bslash :: 'r' :: r) = '\r' :: process_escape_sequences r)
  ∧ (∀ r : Str,
        process_escape_sequences (bslash :: bslash :: r) = bslash :: process_escape_sequences r)
  ∧ (∀ r : Str,
        process_escape_sequences (bslash :: dquote :: r) = dquote :: process_escape_sequences r)
  ∧ (∀ r : Str,
        process_escape_sequences (bslash :: squote :: r) = squote :: process_escape_sequences r)
  ∧ (∀ (c : Char) (r : Str),
        c ≠ 'n' → c ≠ 't' → c ≠ 'r' → c ≠ bslash → c ≠ dquote → c ≠ squote →
        process_escape_sequences (bslash :: c :: r)
          = bslash :: process_escape_sequences (c :: r))
  ∧ (∀ (c : Char) (r : Str), c ≠ bslash →
        process_escape_sequences (c :: r) = c :: process_escape_sequences r)
  ∧ process_escape_sequences [bslash] = [bslash]
  ∧ envLookup (parseOk c7content) (("MSG").toList) = some (("line1\nline2").toList) := by
  refine ⟨fun r => rfl, fun r => rfl, fun r => rfl, fun r => rfl, fun r => rfl, fun r => rfl,
    ?_, pes_cons_of_ne, rfl, by decide⟩
  intro c r h1 h2 h3 h4 h5 h6
  have e1 : (c == 'n') = false := by simpa using h1
  have e2 : (c == 't') = false := by simpa using h2
  have e3 : (c == 'r') = false := by simpa using h3
  have e4 : (c == bslash) = false := by simpa using h4
  have e5 : (c == dquote) = false := by simpa using h5
  have e6 : (c == squote) = false := by simpa using h6
  rw [pes_cons_of_ne c r h4]
  rw [process_escape_sequences.eq_def]
  simp only [e1, e2, e3, e4, e5, e6, Bool.false_eq_true, if_false,
    beq_self_eq_true, if_true]

/-- Witness for C7: the hypothesis-bearing conjuncts applied at concrete
characters. -/
theorem C7_escape_decoding_witness :
    process_escape_sequences [bslash, 'x'] = bslash :: process_escape_sequences ['x']
      ∧ process_escape_sequences ['a', 'b'] = 'a' :: process_escape_sequences ['b'] :=
  ⟨C7_escape_decoding.2.2.2.2.2.2.1 'x' [] (by decide) (by decide) (by decide) (by decide)
      (by decide) (by decide),
   C7_escape_decoding.2.2.2.2.2.2.2.1 'a' ['b'] (by decide)⟩

/-- The trailing-backslash count computed as a left fold that is reset by
every character other than a backslash: the specification-side reading of
the number of consecutive backslashes before the end of the string. -/
def specTrailingBackslashCount (s : Str) : Nat :=
  s.foldl (fun acc c => if c == bslash then acc + 1 else 0) 0

lemma specTrailingBackslashCount_eq (l : Str) :
    specTrailingBackslashCount l = trailingBackslashes l := by
  induction l using List.reverseRecOn with
  | nil => rfl
  | append_singleton l c ih =>
    have ih' : List.foldl (fun acc c => if c == bslash then acc + 1 else 0) 0 l
        = (List.takeWhile (fun c => c == bslash) l.reverse).length := ih
    show (l ++ [c]).foldl (fun acc c => if c == bslash then acc + 1 else 0) 0
        = ((l ++ [c]).reverse.takeWhile (fun c => c == bslash)).length
    rw [List.foldl_append, List.reverse_append]
    simp only [List.reverse_singleton, List.singleton_append, List.foldl_cons, List.foldl_nil,
      List.takeWhile_cons]
    cases h : c == bslash with
    | true =>
      rw [if_pos rfl, if_pos rfl, List.length_cons, ih']
    | false =>
      rw [if_neg (by simp), if_neg (by simp)]
      rfl

/-- Input whose value ends in an escaped double quote (one backslash). -/
def c9escapedLines : List Str := [("K=\"a\\\"").toList, ("b\"").toList]

/-- Input whose value ends in an unescaped double quote preceded by two
backslashes. -/
def c9unescapedLines : List Str := [("K=\"a\\\\\"").toList]

/-- Claim C9: a value beginning with a quote character is dispatched as a
multiline quoted value exactly when it does not end with the matching
quote counted as unescaped, a trailing quote being unescaped exactly when
it is preceded by an even number of consecutive backslashes; the value
ending in backslash-quote (odd) consumes a second line, the value ending
in backslash-backslash-quote (even) is a single-line entry. -/
theorem C9_unescaped_quote_parity :
    (∀ (s : Str) (q : Char),
        ends_with_unescaped_quote s q
          = ((s.getLast? == some q) && (specTrailingBackslashCount s.dropLast % 2 == 0)))
      ∧ parse_env_entry c9escapedLines = some (("K").toList, ("a\"\nb").toList, 2)
      ∧ parse_env_entry c9unescapedLines = some (("K").toList, ("a\\").toList, 1) := by
  refine ⟨?_, by decide, by decide⟩
  intro s q
  unfold ends_with_unescaped_quote
  rw [specTrailingBackslashCount_eq]
  by_cases h : (s.getLast? == some q) = true
  · simp [h]
  · have h' : (s.getLast? == some q) = false := eq_false_of_ne_true h
    simp [h']

/-- Claim C8: a single-line entry whose trimmed value starts and ends with
the same quote character (the pairing not being the multiline case, that
is, the final quote counts as unescaped) has the outer quotes stripped
and escape sequences decoded; a single-line entry whose trimmed value is
not quote-wrapped is taken literally with no escape decoding. -/
theorem C8_quoted_vs_literal :
    (∀ (l : Str) (rest : List Str) (kraw vraw : Str) (q : Char),
        splitEq1 (trim l) = (kraw, some vraw) →
        trim kraw ≠ [] →
        (trim vraw).head? = some q →
        (trim vraw).getLast? = some q →
        (q = dquote ∨ q = squote) →
        ends_with_unescaped_quote (trim vraw) q = true →
        2 ≤ (trim vraw).length →
        trim (trim vraw) = trim vraw →
        parse_env_entry (l :: rest)
          = some (trim kraw,
              process_escape_sequences (trim (((trim vraw).drop 1).dropLast)), 1))
  ∧ (∀ (l : Str) (rest : List Str) (kraw vraw : Str),
        splitEq1 (trim l) = (kraw, some vraw) →
        trim kraw ≠ [] →
        trim vraw ≠ [] →
        (trim vraw).head? ≠ some dquote →
        (trim vraw).head? ≠ some squote →
        isContLine (trim vraw) = false →
        parse_env_entry (l :: rest) = some (trim kraw, trim vraw, 1)) := by
  constructor
  · intro l rest kraw vraw q hsplit hkey hhead hlast hqc huq hlen htrim
    have hvne : trim vraw ≠ [] := by
      intro h
      rw [h] at hhead
      simp at hhead
    have hqnb : q ≠ bslash := by
      rcases hqc with h | h <;> subst h <;> decide
    have hncont : isContLine (trim vraw) = false := by
      unfold isContLine endsWithChar
      rw [hlast]
      have : (some q == some bslash) = false := by simpa using hqnb
      simp [this]
    have hnd : ((trim vraw).head? == some dquote
        && !ends_with_unescaped_quote (trim vraw) dquote) = false := by
      rcases hqc with h | h <;> subst h
      · rw [huq]; simp
      · rw [hhead]
        have : (some squote == some dquote) = false := by decide
        simp [this]
    have hns : ((trim vraw).head? == some squote
        && !ends_with_unescaped_quote (trim vraw) squote) = false := by
      rcases hqc with h | h <;> subst h
      · rw [hhead]
        have : (some dquote == some squote) = false := by decide
        simp [this]
      · rw [huq]; simp
    rw [parse_env_entry_single l rest kraw vraw hsplit hkey hvne hnd hns hncont]
    have hquoted : (((trim vraw).head? == some dquote
          && endsWithChar (trim vraw) dquote)
        || ((trim vraw).head? == some squote
          && endsWithChar (trim vraw) squote)) = true := by
      unfold endsWithChar
      rcases hqc with h | h <;> subst h <;> rw [hhead, hlast] <;> simp
    have hsq : strip_quotes (trim vraw) = ((trim vraw).drop 1).dropLast := by
      unfold strip_quotes
      rw [htrim, if_pos hlen]
      rcases hqc with h | h <;> subst h <;> rw [if_pos (by rw [hhead, hlast]; simp)]
    unfold parse_env_line
    rw [hsplit]
    simp only [if_neg hkey, if_neg hvne, hquoted, if_true, hsq]
    rfl
  · intro l rest kraw vraw hsplit hkey hvne hnd hns hncont
    have hnd' : ((trim vraw).head? == some dquote) = false := by
      cases h : (trim vraw).head? == some dquote
      · rfl
      · exact absurd (by simpa using h) hnd
    have hns' : ((trim vraw).head? == some squote) = false := by
      cases h : (trim vraw).head? == some squote
      · rfl
      · exact absurd (by simpa using h) hns
    rw [parse_env_entry_single l rest kraw vraw hsplit hkey hvne
      (by rw [hnd']; rfl) (by rw [hns']; rfl) hncont]
    unfold parse_env_line
    rw [hsplit]
    simp only [if_neg hkey, if_neg hvne, hnd', hns', Bool.false_and, Bool.or_self,
      Bool.false_eq_true, if_false]
    rfl

/-- Witness for C8: a double-quoted value containing a backslash-n is
decoded, a bare value containing a backslash-n is kept verbatim. -/
theorem C8_quoted_vs_literal_witness :
    parse_env_entry [("K=\"a\\nb\"").toList]
        = some (("K").toList, ("a\nb").toList, 1)
      ∧ parse_env_entry [("K=a\\nb").toList]
        = some (("K").toList, ("a\\nb").toList, 1) := by
  constructor
  · have h := C8_quoted_vs_literal.1 (("K=\"a\\nb\"").toList) [] (("K").toList)
      (("\"a\\nb\"").toList) dquote (by decide) (by decide) (by decide) (by decide)
      (Or.inl rfl) (by decide) (by decide) (by decide)
    rw [h]
    decide
  · have h := C8_quoted_vs_literal.2 (("K=a\\nb").toList) [] (("K").toList)
      (("a\\nb").toList) (by decide) (by decide) (by decide) (by decide) (by decide)
      (by decide)
    rw [h]
    decide

/-- Unterminated two-line quoted value: the input ends with no closing
quote in sight. -/
def c10content : Str := ("K=\"a\nb").toList

/-- Claim C10: when a quoted value never closes and the input ends before
the continuation cap is reached, the entry is still produced: its value
is the remainder of the first line after the opening quote followed by
every remaining input line verbatim, each preceded by a newline, with
escape sequences decoded, and the entry consumes all remaining lines. -/
theorem C10_unterminated_quote_kept :
    (∀ (l : Str) (rest : List Str) (kraw vraw : Str) (q : Char),
        splitEq1 (trim l) = (kraw, some vraw) →
        trim kraw ≠ [] →
        (trim vraw).head? = some q →
        (q = dquote ∨ q = squote) →
        ends_with_unescaped_quote (trim vraw) q = false →
        (∀ ln ∈ rest, find_unescaped_quote ln q = none) →
        rest.length ≤ 100 →
        parse_env_entry (l :: rest)
          = some (trim kraw,
              process_escape_sequences
                ((trim vraw).drop 1 ++ rest.flatMap (fun ln => nlCh :: ln)),
              1 + rest.length))
      ∧ envLookup (parseOk c10content) (("K").toList) = some (("a\nb").toList) := by
  constructor
  · intro l rest kraw vraw q hsplit hkey hhead hqc hml hnone hlen
    rw [parse_env_entry_multiline l rest kraw vraw q hsplit hkey hhead hqc hml]
    rw [multilineLoop_exhaust q rest 0 _ 1 hnone (by omega)]
    rfl
  · decide

/-- Witness for C10: a value opening a double quote that never closes,
followed by two quoteless lines. -/
theorem C10_unterminated_quote_kept_witness :
    parse_env_entry [("K=\"a").toList, ("b").toList, ("c").toList]
      = some (("K").toList, ("a\nb\nc").toList, 3) := by
  have h := C10_unterminated_quote_kept.1 (("K=\"a").toList)
    [("b").toList, ("c").toList] (("K").toList) (("\"a").toList) dquote
    (by decide) (by decide) (by decide) (Or.inl rfl) (by decide) (by decide) (by decide)
  exact h.trans (by decide)

/-- Multiline quoted value with a hash character on its second physical
line. -/
def c3content : Str := ("K=\"a\nb # c\nd\"").toList

/-- Counterexample to claim C3: the hash on the continuation line of the
open quoted value is preserved in the parsed value; the line is not
truncated at the hash as the claim asserts. -/
theorem C3_counterexample :
    envLookup (parseOk c3content) (("K").toList) = some (("a\nb # c\nd").toList)
      ∧ envLookup (parseOk c3content) (("K").toList) ≠ some (("a\nb\nd").toList) := by
  constructor <;> decide

/-- Claim C3 amended: comment stripping is applied only to the first
physical line of an entry; the continuation lines of a still-open quoted
value are consumed raw, so a hash there is protected: every line before
the closing line is appended verbatim and the closing line is truncated
at the unescaped quote, not at any hash. -/
theorem C3_amended_continuation_verbatim :
    ∀ (l : Str) (pre : List Str) (ln : Str) (post : List Str) (pos : Nat)
      (kraw vraw : Str) (q : Char),
      splitEq1 (trim l) = (kraw, some vraw) →
      trim kraw ≠ [] →
      (trim vraw).head? = some q →
      (q = dquote ∨ q = squote) →
      ends_with_unescaped_quote (trim vraw) q = false →
      (∀ p ∈ pre, find_unescaped_quote p q = none) →
      find_unescaped_quote ln q = some pos →
      pre.length ≤ 101 →
      parse_env_entry (l :: (pre ++ ln :: post))
        = some (trim kraw,
            process_escape_sequences
              ((trim vraw).drop 1 ++ pre.flatMap (fun p => nlCh :: p)
                ++ nlCh :: ln.take pos),
            pre.length + 2) := by
  intro l pre ln post pos kraw vraw q hsplit hkey hhead hqc hml hnone hfind hlen
  rw [parse_env_entry_multiline l (pre ++ ln :: post) kraw vraw q hsplit hkey hhead hqc hml]
  rw [multilineLoop_found q pre ln post pos 0 _ 1 hnone hfind (by omega)]
  rw [show 1 + pre.length + 1 = pre.length + 2 by omega]
  rfl

/-- Witness for the amended C3: the hash line between the opening and the
closing quote is kept verbatim. -/
theorem C3_amended_witness :
    parse_env_entry [("K=\"x").toList, ("p # q").toList, ("e\"f").toList]
      = some (("K").toList, ("x\np # q\ne").toList, 3) := by
  have h := C3_amended_continuation_verbatim (("K=\"x").toList) [("p # q").toList]
    (("e\"f").toList) [] 1 (("K").toList) (("\"x").toList) dquote (by decide) (by decide)
    (by decide) (Or.inl rfl) (by decide) (by decide) (by decide) (by decide)
  exact h.trans (by decide)

/-- A quoted value that opens on the first line and only closes on the
hundred-and-first continuation line. -/
def c2cxContent : Str :=
  (String.intercalate ("\n") (["K=\"x"] ++ List.replicate 100 "y" ++ ["z\""])).toList

/-- Counterexample to claim C2: in this input no unescaped closing quote
occurs within the first hundred continuation lines, yet the map does
contain an entry for the key (the closing quote on the hundred-and-first
continuation line is still found, because the abort check fires only
after more than one hundred and one quoteless continuation lines). -/
theorem C2_counterexample :
    (∀ ln ∈ ((rustLines c2cxContent).drop 1).take 100,
        find_unescaped_quote ln dquote = none)
      ∧ envLookup (parseOk c2cxContent) (("K").toList) ≠ none := by
  constructor <;> decide

/-- Claim C2 amended: the entry is abandoned exactly when at least one
hundred and two continuation lines are available and none of the first
hundred and two contains an unescaped closing quote; in that case
parse_env_entry returns no entry and the driver advances the cursor by a
single line, resuming with the line right after the opening line. -/
theorem C2_amended_runaway_cap :
    ∀ (l : Str) (rest : List Str) (kraw vraw : Str) (q : Char),
      l ≠ [] → trim l = l → l.head? ≠ some hashCh → strip_inline_comment l = l →
      splitEq1 l = (kraw, some vraw) →
      trim kraw ≠ [] →
      (trim vraw).head? = some q →
      (q = dquote ∨ q = squote) →
      ends_with_unescaped_quote (trim vraw) q = false →
      102 ≤ rest.length →
      (∀ ln ∈ rest.take 102, find_unescaped_quote ln q = none) →
      parse_env_entry (l :: rest) = none ∧ parseLoop (l :: rest) = parseLoop rest := by
  intro l rest kraw vraw q hne htl hh hsic hsplit hkey hhead hqc hml hlen hnone
  have hsplit' : splitEq1 (trim l) = (kraw, some vraw) := by rw [htl]; exact hsplit
  have hentry : parse_env_entry (l :: rest) = none := by
    rw [parse_env_entry_multiline l rest kraw vraw q hsplit' hkey hhead hqc hml]
    rw [multilineLoop_abort q rest 0 _ 1 (by simpa using hnone) (by omega) (by omega)]
    rfl
  exact ⟨hentry, parseLoop_entry_none l rest hne htl hh hsic hentry⟩

def c2wl : Str := ("K=\"x").toList

def c2wrest : List Str := List.replicate 102 (['y'] : Str)

/-- Witness for the amended C2: one hundred and two quoteless continuation
lines make the entry abandoned and parsing resume on the next line. -/
theorem C2_amended_witness :
    parse_env_entry (c2wl :: c2wrest) = none
      ∧ parseLoop (c2wl :: c2wrest) = parseLoop c2wrest :=
  C2_amended_runaway_cap c2wl c2wrest (("K").toList) (("\"x").toList) dquote
    (by decide) (by decide) (by decide) (by decide) (by decide) (by decide) (by decide)
    (Or.inl rfl) (by decide) (by decide) (by decide)

/-- The line-continuation example of the claim: a space before the
trailing backslash. -/
def c6content : Str := ("LONG=foo \\\nbar").toList

/-- Counterexample to claim C6: the example input yields the value with
the explicit space retained (foo, space, bar), not the claimed foobar:
stripping the trailing backslash does not remove the whitespace that
precedes it on the line. -/
theorem C6_counterexample :
    envLookup (parseOk c6content) (("LONG").toList) = some (("foo bar").toList)
      ∧ envLookup (parseOk c6content) (("LONG").toList) ≠ some (("foobar").toList) := by
  constructor <;> decide

/-- Claim C6 amended: for an unquoted value whose first line ends in a
single trailing backslash, the backslash is stripped (the characters
before it, including any space, are retained), each subsequent line is
trimmed and its own trailing single backslash stripped, the pieces are
concatenated with no added separator until a line not ending in a single
backslash is appended; the loop stops unconditionally once more than one
hundred lines are consumed, that is after the hundredth continuation
line (one hundred and one lines consumed), keeping the value gathered so
far; the example with an explicit space yields the value foo-space-bar. -/
theorem C6_amended_line_continuation :
    (∀ (l : Str) (pre : List Str) (stop : Str) (post : List Str) (kraw vraw : Str),
        splitEq1 (trim l) = (kraw, some vraw) →
        trim kraw ≠ [] →
        trim vraw ≠ [] →
        (trim vraw).head? ≠ some dquote →
        (trim vraw).head? ≠ some squote →
        isContLine (trim vraw) = true →
        (∀ p ∈ pre, isContLine (trim p) = true) →
        isContLine (trim stop) = false →
        pre.length ≤ 99 →
        parse_env_entry (l :: (pre ++ stop :: post))
          = some (trim kraw,
              process_escape_sequences ((trim vraw).dropLast
                ++ (pre.map (fun p => (trim p).dropLast)).flatten ++ trim stop),
              pre.length + 2))
  ∧ (∀ (l : Str) (rest : List Str) (kraw vraw : Str),
        splitEq1 (trim l) = (kraw, some vraw) →
        trim kraw ≠ [] →
        trim vraw ≠ [] →
        (trim vraw).head? ≠ some dquote →
        (trim vraw).head? ≠ some squote →
        isContLine (trim vraw) = true →
        (∀ p ∈ rest.take 100, isContLine (trim p) = true) →
        100 ≤ rest.length →
        parse_env_entry (l :: rest)
          = some (trim kraw,
              process_escape_sequences ((trim vraw).dropLast
                ++ ((rest.take 100).map (fun p => (trim p).dropLast)).flatten),
              101))
  ∧ parse_env_entry [("LONG=foo \\").toList, ("bar").toList]
      = some (("LONG").toList, ("foo bar").toList, 2) := by
  refine ⟨?_, ?_, by decide⟩
  · intro l pre stop post kraw vraw hsplit hkey hvne hnd hns hcont hpre hstop hlen
    rw [parse_env_entry_continuation l (pre ++ stop :: post) kraw vraw hsplit hkey hvne
      hnd hns hcont]
    rw [continuationLoop_stop pre stop post _ 1 hpre hstop (by omega)]
    rw [show 1 + pre.length + 1 = pre.length + 2 by omega]
  · intro l rest kraw vraw hsplit hkey hvne hnd hns hcont hpre hlen
    rw [parse_env_entry_continuation l rest kraw vraw hsplit hkey hvne hnd hns hcont]
    rw [continuationLoop_cap rest _ 1 (by simpa using hpre) (by omega) (by omega)]

/-- Witness for the amended C6: a three-line continuation and a capped
run of one hundred and fifty continuation lines. -/
theorem C6_amended_witness :
    parse_env_entry [("K=x\\").toList, ("y\\").toList, ("z").toList]
      = some (("K").toList, ("xyz").toList, 3)
      ∧ parse_env_entry ((("K=a\\").toList) :: List.replicate 150 (['x', bslash] : Str))
        = some (("K").toList, 'a' :: List.replicate 100 'x', 101) := by
  constructor
  · have h := C6_amended_line_continuation.1 (("K=x\\").toList) [("y\\").toList]
      (("z").toList) [] (("K").toList) (("x\\").toList) (by decide) (by decide)
      (by decide) (by decide) (by decide) (by decide) (by decide) (by decide) (by decide)
    exact h.trans (by decide)
  · have h := C6_amended_line_continuation.2.1 (("K=a\\").toList)
      (List.replicate 150 (['x', bslash] : Str)) (("K").toList) (("a\\").toList)
      (by decide) (by decide) (by decide) (by decide) (by decide) (by decide) (by decide)
      (by decide)
    exact h.trans (by decide)

/-- State of the inline-comment scanner as the specification describes it:
whether the scanner is inside a quoted region, which quote character
opened it, and whether the previous character was an unconsumed
backslash. -/
structure CState where
  in_quotes : Bool
  quote_char : Char
  escaped : Bool

/-- One transition of the scanner, following the specification: an escaped
character is consumed with no other effect; a backslash inside quotes
sets the escape flag; an unescaped quote outside quotes opens a region;
the matching quote closes it; everything else leaves the state alone. -/
def commentScanStep (st : CState) (ch : Char) : CState :=
  if st.escaped then { st with escaped := false }
  else if ch == bslash && st.in_quotes then { st with escaped := true }
  else if (ch == dquote || ch == squote) && !st.in_quotes then ⟨true, ch, false⟩
  else if st.in_quotes && ch == st.quote_char then { st with in_quotes := false }
  else st

/-- Scanner state after consuming a prefix of the line. -/
def commentState (l : Str) : CState :=
  l.foldl commentScanStep ⟨false, dquote, false⟩

/-- Declarative version of the inline-comment stripper: truncate at the
first position holding a hash while the scanner state built from the
preceding prefix is not inside quotes (trailing whitespace of the kept
prefix trimmed); keep the line unchanged when no such position exists. -/
def specStripInlineComment (line : Str) : Str :=
  match line.enum.find? (fun p =>
      p.2 == hashCh && !(commentState (line.take p.1)).in_quotes) with
  | some p => trimEnd (line.take p.1)
  | none => line

lemma specFind_shift (c : Char) (cs : Str) (st : CState) (i : Nat)
    (hP0 : (c == hashCh && !st.in_quotes) = false) :
    (((c :: cs).enum.find? (fun p =>
        p.2 == hashCh && !(((c :: cs).take p.1).foldl commentScanStep st).in_quotes)).map
      (fun p => i + p.1))
    = ((cs.enum.find? (fun p =>
        p.2 == hashCh
          && !((cs.take p.1).foldl commentScanStep (commentScanStep st c)).in_quotes)).map
      (fun p => (i + 1) + p.1)) := by
  have hPf : ((fun p : Nat × Char =>
        p.2 == hashCh && !(((c :: cs).take p.1).foldl commentScanStep st).in_quotes)
          ∘ Prod.map (· + 1) id)
      = (fun p : Nat × Char =>
        p.2 == hashCh
          && !((cs.take p.1).foldl commentScanStep (commentScanStep st c)).in_quotes) := by
    funext p
    rfl
  rw [List.enum_cons']
  rw [List.find?_cons_of_neg _ (by simpa using hP0), List.find?_map, hPf]
  cases hfind : cs.enum.find? (fun p =>
      p.2 == hashCh
        && !((cs.take p.1).foldl commentScanStep (commentScanStep st c)).in_quotes) with
  | none => simp [hfind]
  | some p =>
    simp [hfind]
    omega

lemma sicFind_spec (cs : Str) : ∀ (st : CState) (i : Nat),
    (st.escaped = true → st.in_quotes = true) →
    sicFind cs st.in_quotes st.quote_char st.escaped i
      = (cs.enum.find? (fun p =>
            p.2 == hashCh && !((cs.take p.1).foldl commentScanStep st).in_quotes)).map
          (fun p => i + p.1) := by
  induction cs with
  | nil => intro st i hinv; simp [sicFind]
  | cons c cs ih =>
    intro st i hinv
    by_cases hA : st.escaped = true
    · have hq : st.in_quotes = true := hinv hA
      have hstep : commentScanStep st c = ⟨st.in_quotes, st.quote_char, false⟩ := by
        simp [commentScanStep, hA]
      rw [specFind_shift c cs st i (by simp [hq]), hstep]
      simp only [sicFind, hA, if_true]
      exact ih ⟨st.in_quotes, st.quote_char, false⟩ (i + 1) (by intro h; simp at h)
    · have hAf : st.escaped = false := eq_false_of_ne_true hA
      by_cases hB : (c == bslash && st.in_quotes) = true
      · have hB' : c = bslash ∧ st.in_quotes = true := by
          simpa using hB
        have hstep : commentScanStep st c = ⟨st.in_quotes, st.quote_char, true⟩ := by
          simp [commentScanStep, hAf, hB]
        have hP0 : (c == hashCh && !st.in_quotes) = false := by
          simp [hB'.2]
        rw [specFind_shift c cs st i hP0, hstep]
        simp only [sicFind, hAf, Bool.false_eq_true, if_false, hB, if_true]
        exact ih ⟨st.in_quotes, st.quote_char, true⟩ (i + 1) (fun _ => hB'.2)
      · have hBf : (c == bslash && st.in_quotes) = false := eq_false_of_ne_true hB
        by_cases hC : ((c == dquote || c == squote) && !st.in_quotes) = true
        · have hC' : (c = dquote ∨ c = squote) ∧ st.in_quotes = false := by
            simpa using hC
          have hstep : commentScanStep st c = ⟨true, c, false⟩ := by
            simp [commentScanStep, hAf, hBf, hC]
          have hch : (c == hashCh) = false := by
            rcases hC'.1 with h | h <;> subst h <;> decide
          have hP0 : (c == hashCh && !st.in_quotes) = false := by
            simp [hch]
          rw [specFind_shift c cs st i hP0, hstep]
          simp only [sicFind, hAf, Bool.false_eq_true, if_false, hBf, hC, if_true]
          exact ih ⟨true, c, false⟩ (i + 1) (by intro h; simp at h)
        · have hCf : ((c == dquote || c == squote) && !st.in_quotes) = false :=
            eq_false_of_ne_true hC
          by_cases hD : (st.in_quotes && c == st.quote_char) = true
          · have hD' : st.in_quotes = true ∧ c = st.quote_char := by
              simpa using hD
            have hstep : commentScanStep st c = ⟨false, st.quote_char, false⟩ := by
              have : ({ st with in_quotes := false } : CState)
                  = ⟨false, st.quote_char, false⟩ := by
                cases st
                simp_all
              rw [commentScanStep, if_neg (by simp [hAf]), if_neg (by simp [hBf]),
                if_neg (by simp [hCf]), if_pos hD]
              exact this
            have hP0 : (c == hashCh && !st.in_quotes) = false := by
              simp [hD'.1]
            rw [specFind_shift c cs st i hP0, hstep]
            simp only [sicFind, hAf, Bool.false_eq_true, if_false, hBf, hCf, hD, if_true]
            exact ih ⟨false, st.quote_char, false⟩ (i + 1) (by intro h; simp at h)
          · have hDf : (st.in_quotes && c == st.quote_char) = false := eq_false_of_ne_true hD
            by_cases hE : (c == hashCh && !st.in_quotes) = true
            · simp only [sicFind, hAf, Bool.false_eq_true, if_false, hBf, hCf, hDf, hE,
                if_true]
              rw [List.enum_cons']
              rw [List.find?_cons_of_pos _ (by simpa using hE)]
              simp
            · have hEf : (c == hashCh && !st.in_quotes) = false := eq_false_of_ne_true hE
              have hstep : commentScanStep st c = st := by
                rw [commentScanStep, if_neg (by simp [hAf]), if_neg (by simp [hBf]),
                  if_neg (by simp [hCf]), if_neg (by simp [hDf])]
              have hst : st = ⟨st.in_quotes, st.quote_char, false⟩ := by
                cases st
                simp_all
              rw [specFind_shift c cs st i hEf, hstep]
              simp only [sicFind, hAf, Bool.false_eq_true, if_false, hBf, hCf, hDf, hEf]
              have hih := ih ⟨st.in_quotes, st.quote_char, false⟩ (i + 1) (by intro h; simp at h)
              rw [← hst] at hih
              rw [hAf] at hih
              exact hih

/-- The inline-comment example of the claim: a hash inside the quotes and
a real comment after them. -/
def c5content : Str := ("KEY=\"a # b\" # real comment").toList

/-- Claim C5: inline-comment stripping truncates the line at the first
hash encountered while the character scanner is not inside a single or
double quoted region, trimming the trailing whitespace of the kept
prefix, and preserves every hash inside an open quoted region; the line
with a hash inside quotes followed by a real comment yields the value
with the inner hash intact. -/
theorem C5_inline_comment_stripping :
    (∀ line : Str, strip_inline_comment line = specStripInlineComment line)
      ∧ envLookup (parseOk c5content) (("KEY").toList) = some (("a # b").toList) := by
  constructor
  · intro line
    unfold strip_inline_comment specStripInlineComment
    simp only [commentState]
    have h : sicFind line false dquote false 0
        = (line.enum.find? (fun p =>
            p.2 == hashCh
              && !((line.take p.1).foldl commentScanStep
                    (⟨false, dquote, false⟩ : CState)).in_quotes)).map
          (fun p => 0 + p.1) :=
      sicFind_spec line ⟨false, dquote, false⟩ 0 (by intro h; simp at h)
    rw [h]
    cases hfind : line.enum.find? (fun p =>
        p.2 == hashCh
          && !((line.take p.1).foldl commentScanStep
                (⟨false, dquote, false⟩ : CState)).in_quotes) with
    | none => simp [hfind]
    | some p => simp [hfind]
  · decide

end DotEnv
